import Mathlib

/-!
Verification development for the log-filtering utility `filter_responses.py`.

Python strings are embedded as `List Char`; the Python string operations the
program uses (`str.split(sep)` with an explicit one-character separator,
`str.lower`, `str.endswith`, integer indexing with Python's negative-index
wrap-around) are embedded as executable Lean functions on `List Char`.
File contents are embedded as `List Char`; reading a file's lines
(newline-inclusive, as Python file iteration and `readlines` produce them)
is embedded by `splitLines`, and writing a sequence of strings is their
concatenation.  Fallible operations (Python `IndexError` on a missing list
index) return `Option`.
-/

/-- Python `s.split(seps)` generalised to a predicate choosing the separator
characters: splits at every separator occurrence, keeping empty segments.
`splitOnPred p s` never returns `[]`; for the empty string it returns `[[]]`,
matching Python's `''.split(c) == ['']`. -/
def splitOnPred (p : Char → Bool) : List Char → List (List Char)
  | [] => [[]]
  | c :: cs =>
    if p c then [] :: splitOnPred p cs
    else
      match splitOnPred p cs with
      | [] => [[c]]
      | l :: ls => (c :: l) :: ls

/-- Python `s.split(sep)` for a one-character separator `sep`. -/
def splitOnChar (sep : Char) (s : List Char) : List (List Char) :=
  splitOnPred (fun c => c == sep) s

/-- Python list indexing `l[i]` with an `Int` index: a negative index counts
from the end (`l[-1]` is the last element); an out-of-range index is an
`IndexError`, embedded as `none`. -/
def pyGet {α : Type} (l : List α) (i : Int) : Option α :=
  if 0 ≤ i then l[i.toNat]?
  else if (-i).toNat ≤ l.length then l[l.length - (-i).toNat]? else none

/-- Python `s.lower()`. -/
def pyLower (s : List Char) : List Char := s.map Char.toLower

/-- Python `s.endswith(suffix)`: Boolean suffix test. -/
def pyEndsWith (s suffix : List Char) : Bool := suffix.isSuffixOf s

/-- `ResponseFilter._get_last_path_element_from_log`:
`line.split('"')[1]` (the quoted request field), then
`request_param.split(' ')[1]` (the request path), then
`file_path.split('/')[len - 1]` (the last path element).
A missing index is Python's `IndexError`, embedded as `none`. -/
def get_last_path_element_from_log (line : List Char) : Option (List Char) :=
  match pyGet (splitOnChar '"' line) 1 with
  | none => none
  | some request_param =>
    match pyGet (splitOnChar ' ' request_param) 1 with
    | none => none
    | some file_path =>
      let path_elements := splitOnChar '/' file_path
      pyGet path_elements ((path_elements.length : Int) - 1)

/-- `ResponseFilter._last_path_element_passes_extension_filter`:
`last_path_element.lower().endswith(self._extension_filter)`.
Note the configured extension filter itself is *not* lower-cased. -/
def last_path_element_passes_extension_filter
    (extension_filter last_path_element : List Char) : Bool :=
  pyEndsWith (pyLower last_path_element) extension_filter

/-- `ResponseFilter._get_response_code_from_log`:
`line.split(' ')[len - 2]`.  With Python's indexing this wraps to the final
element when the split has a single element (index `-1`), so it is fallible
only through `pyGet` (and in fact never fails, see
`get_response_code_from_log_isSome`). -/
def get_response_code_from_log (line : List Char) : Option (List Char) :=
  let response_elements := splitOnChar ' ' line
  pyGet response_elements ((response_elements.length : Int) - 2)

/-- `ResponseFilter._response_code_passes_filter`: exact string equality with
the configured response-code filter. -/
def response_code_passes_filter (code_filter response_code : List Char) : Bool :=
  response_code == code_filter

/-- `ResponseFilter.filtered_elements_filename`: the literal `'gifs_'`
prepended to the source filename. -/
def filtered_elements_filename (filename : List Char) : List Char :=
  ("gifs_").data ++ filename

/-- The body of the loop in `ResponseFilter.create_new_file_with_filtered_elements`
for one line: extract the last path element (propagating its failure); if it
passes the extension filter, extract the response code (propagating failure);
if that passes the code filter, write `last_path_element + '\n'`. The result
is the list of strings written for this line. -/
def process_log_line (extension_filter code_filter line : List Char) :
    Option (List (List Char)) :=
  match get_last_path_element_from_log line with
  | none => none
  | some last_path_element =>
    if last_path_element_passes_extension_filter extension_filter last_path_element then
      match get_response_code_from_log line with
      | none => none
      | some response_code =>
        if response_code_passes_filter code_filter response_code then
          some [last_path_element ++ ['\n']]
        else some []
    else some []

/-- The loop of `ResponseFilter.create_new_file_with_filtered_elements` over
the source file's lines: returns the strings written to the output file before
any failure, paired with `true` iff no line raised. -/
def filter_run (extension_filter code_filter : List Char) :
    List (List Char) → List (List Char) × Bool
  | [] => ([], true)
  | line :: rest =>
    match process_log_line extension_filter code_filter line with
    | none => ([], false)
    | some written =>
      let r := filter_run extension_filter code_filter rest
      (written ++ r.1, r.2)

/-- `ResponseFilter.create_new_file_with_filtered_elements`, observed as the
sequence of strings written to the output file: `some` of that sequence when
every line parses, `none` when some line raises (the run aborts). -/
def create_new_file_with_filtered_elements
    (extension_filter code_filter : List Char) (lines : List (List Char)) :
    Option (List (List Char)) :=
  let r := filter_run extension_filter code_filter lines
  if r.2 then some r.1 else none

/-- Python file iteration / `file.readlines()`: the newline-inclusive lines of
a file's contents.  Every `'\n'` ends a line; a final chunk without `'\n'` is
a last line of its own; the empty file has no lines. -/
def splitLines : List Char → List (List Char)
  | [] => []
  | c :: cs =>
    if c = '\n' then ['\n'] :: splitLines cs
    else
      match splitLines cs with
      | [] => [[c]]
      | l :: ls => (c :: l) :: ls

/-- The iteration order of the Python `set` built by
`TextFileFilter.remove_duplicates` is unspecified: the only guarantee is that
iterating the set yields each distinct line exactly once, in some arbitrary
order.  A list of lines is a possible iteration order for the set
`set(file.readlines())` of a file with the given contents iff it is a
permutation of the distinct lines of those contents. -/
def set_iteration_ok (content : List Char) (order : List (List Char)) : Prop :=
  order.Perm (splitLines content).dedup

/-- `set_iteration_ok` is decidable, so concrete iteration orders can be
checked by evaluation. -/
instance set_iteration_ok_decidable (content : List Char) (order : List (List Char)) :
    Decidable (set_iteration_ok content order) := by
  unfold set_iteration_ok
  infer_instance

/-- `TextFileFilter.remove_duplicates`, observed on the file's contents:
read the newline-inclusive lines, collect them into a Python `set`, and
overwrite the file with the set's elements written in the set's iteration
order — i.e. with their concatenation.  Because the iteration order is
unspecified, the run is modelled relative to an arbitrary `order` subject to
`set_iteration_ok content order`; every theorem about `remove_duplicates`
quantifies over all such orders.  (The first argument records which file was
read; the written bytes depend on it only through that constraint.) -/
def remove_duplicates (_content : List Char) (order : List (List Char)) : List Char :=
  order.flatten

/-- A file system, as a partial map from filenames to file contents. -/
def FileSys : Type := List Char → Option (List Char)

/-- Writing (creating or overwriting) one file. -/
def fsWrite (fs : FileSys) (name content : List Char) : FileSys :=
  fun n => if n = name then some content else fs n

/-- `ResponseFilter.create_new_file_with_filtered_elements` as a file-system
transformer: if the source file is missing, `open` raises and nothing is
written; otherwise the output file `'gifs_' + filename` is created/overwritten
with everything the loop wrote before finishing or failing.  No other file is
touched. -/
def run_filter_fs (extension_filter code_filter filename : List Char)
    (fs : FileSys) : FileSys :=
  match fs filename with
  | none => fs
  | some content =>
    fsWrite fs (filtered_elements_filename filename)
      ((filter_run extension_filter code_filter (splitLines content)).1).flatten

/-- The Python whitespace characters recognised by no-argument `str.split()`. -/
def isSpaceChar (c : Char) : Bool :=
  c == ' ' || c == '\t' || c == '\n' || c == '\r' || c == '\x0b' || c == '\x0c'

/-- Python no-argument `s.split()`: split on runs of whitespace, discarding
empty segments.  Used to state spec-side properties phrased in terms of
"whitespace-separated tokens". -/
def pySplitWhitespace (s : List Char) : List (List Char) :=
  (splitOnPred isSpaceChar s).filter (fun t => !t.isEmpty)

/-- The spec's description of `extractResponseCode`: split the whole line on
whitespace; return the second-to-last token. -/
def extract_response_code_spec (line : List Char) : Option (List Char) :=
  let tokens := pySplitWhitespace line
  tokens[tokens.length - 2]?

/-- Join tokens with single spaces (inverse image of single-space-separated
lines, used to describe well-formed log lines). -/
def joinTokens : List (List Char) → List Char
  | [] => []
  | [t] => t
  | t :: ts => t ++ ' ' :: joinTokens ts

/-- A line passes both configured filters: its last path element parses and
passes the extension filter, and its response code passes the code filter. -/
def passes_both_filters (extension_filter code_filter line : List Char) : Bool :=
  match get_last_path_element_from_log line with
  | none => false
  | some e =>
    last_path_element_passes_extension_filter extension_filter e &&
      (match get_response_code_from_log line with
       | none => false
       | some code => response_code_passes_filter code_filter code)

/-- A line passes the response-code filter (regardless of extension). -/
def passes_code_filter (code_filter line : List Char) : Bool :=
  match get_response_code_from_log line with
  | none => false
  | some code => response_code_passes_filter code_filter code

/-- What the run writes for one passing line: its last path element followed
by a newline. -/
def written_element (line : List Char) : List Char :=
  (get_last_path_element_from_log line).getD [] ++ ['\n']

/-- A line is malformed for path extraction: it lacks two `'"'`-delimited
segments, or its quoted request field lacks a second space-separated token. -/
def malformed_line (line : List Char) : Prop :=
  (splitOnChar '"' line).length < 2 ∨
    (2 ≤ (splitOnChar '"' line).length ∧
      (splitOnChar ' ' (((splitOnChar '"' line)[1]?).getD [])).length < 2)

/-- `malformed_line` is decidable, so concrete malformed inputs can be
checked by evaluation. -/
instance malformed_line_decidable (line : List Char) : Decidable (malformed_line line) := by
  unfold malformed_line
  infer_instance

/-- A string is a single newline-terminated line: it ends with `'\n'` and
contains no other `'\n'`. -/
def NlTerminated (l : List Char) : Prop :=
  ∃ m, l = m ++ ['\n'] ∧ '\n' ∉ m

/-- `NlTerminated` is decidable (it says: the last character exists and is
`'\n'`, and no earlier character is), so concrete files can be checked by
evaluation. -/
instance nlTerminated_decidable (l : List Char) : Decidable (NlTerminated l) :=
  decidable_of_iff (l.getLast? = some '\n' ∧ ∀ c ∈ l.dropLast, c ≠ '\n')
    (by
      constructor
      · rintro ⟨hlast, hfree⟩
        refine ⟨l.dropLast, (List.dropLast_append_getLast? '\n' hlast).symm, ?_⟩
        intro hmem
        exact hfree '\n' hmem rfl
      · rintro ⟨m, rfl, hmn⟩
        refine ⟨List.getLast?_concat m, ?_⟩
        intro c hc hceq
        rw [List.dropLast_concat] at hc
        exact hmn (hceq ▸ hc))

/-- A list of strings is a possible result of reading a file's lines: every
line is newline-terminated, except that a final line may instead be a
nonempty string with no newline at all. -/
def ValidLines (ls : List (List Char)) : Prop :=
  (∀ l ∈ ls, NlTerminated l) ∨
    (∃ ts u, ls = ts ++ [u] ∧ (∀ t ∈ ts, NlTerminated t) ∧ u ≠ [] ∧ '\n' ∉ u)

/-- The sample log line used throughout the source's tests. -/
def sample_line : List Char :=
  ("burger.letters.com - - [01/Jul/1995:00:00:11 -0400] \x22GET /shuttle/countdown/liftoff.html HTTP/1.0\x22 304 0").data

/-- A log line whose status code is separated by a tab rather than a space. -/
def tab_line : List Char :=
  ("host - - [t] \x22GET /a/pic.gif HTTP/1.0\x22\t304 0").data

/-- A well-formed sample source file of two log lines. -/
def sample_content : List Char :=
  ("h1 - - [t] \x22GET /a/b.gif HTTP/1.0\x22 200 7\n" ++
   "h2 - - [t] \x22GET /a/c.html HTTP/1.0\x22 200 9\n").data

/-- A source file whose second line has no quoted request field. -/
def bad_content : List Char :=
  ("h1 - - [t] \x22GET /a/b.gif HTTP/1.0\x22 200 7\n" ++
   "h2 - - [t] no quotes at all 200 9\n").data

/-- A source file whose only line requests a directory path ending in `/`. -/
def dir_content : List Char :=
  ("h1 - - [t] \x22GET /shuttle/countdown/ HTTP/1.0\x22 200 3985\n").data

/-- File contents whose last line `X` is not newline-terminated while an
earlier line is the same text with a newline. -/
def mixed_content : List Char :=
  ("X\nX").data

/-- A tiny concrete file system holding only `sample_content` under the name
`log.txt`. -/
def sample_fs : FileSys :=
  fun n => if n = ("log.txt").data then some sample_content else none

/-- File contents whose final line `Y` lacks its trailing newline while the
first line `X\n` has one. -/
def unterminated_content : List Char :=
  ("X\nY").data

/-- A newline-terminated file with a duplicated line, for exercising
deduplication. -/
def dedup_content : List Char :=
  ("x\ny\nx\n").data

/-- Concrete token list for exercising the response-code extraction. -/
def c5_tokens : List (List Char) :=
  [("a").data, ("304").data, ("0").data]

/-- The part of `sample_line` before the opening quote. -/
def c4_pre : List Char := ("burger.letters.com - - [01/Jul/1995:00:00:11 -0400] ").data

/-- The method token of `sample_line`. -/
def c4_method : List Char := ("GET").data

/-- The path token of `sample_line`. -/
def c4_path : List Char := ("/shuttle/countdown/liftoff.html").data

/-- The protocol token of `sample_line`. -/
def c4_proto : List Char := ("HTTP/1.0").data

/-- The part of `sample_line` after the closing quote. -/
def c4_post : List Char := (" 304 0").data

/-! ### Basic properties of the splitting and indexing primitives -/

theorem splitOnPred_ne_nil (p : Char → Bool) (s : List Char) :
    splitOnPred p s ≠ [] := by
  cases s with
  | nil => simp [splitOnPred]
  | cons c cs =>
    simp only [splitOnPred]
    split
    · simp
    · split <;> simp

theorem splitOnPred_of_no_sep {p : Char → Bool} :
    ∀ {m : List Char}, (∀ c ∈ m, p c = false) → splitOnPred p m = [m]
  | [], _ => rfl
  | c :: cs, h => by
    have hc : p c = false := h c (by simp)
    have ih : splitOnPred p cs = [cs] :=
      splitOnPred_of_no_sep (fun d hd => h d (by simp [hd]))
    simp [splitOnPred, hc, ih]

theorem splitOnPred_append {p : Char → Bool} {c0 : Char} (hc : p c0 = true)
    (rest : List Char) :
    ∀ {m : List Char}, (∀ c ∈ m, p c = false) →
      splitOnPred p (m ++ c0 :: rest) = m :: splitOnPred p rest
  | [], _ => by simp [splitOnPred, hc]
  | d :: m, h => by
    have hd : p d = false := h d (by simp)
    have ih := @splitOnPred_append p c0 hc rest m (fun c hcm => h c (by simp [hcm]))
    simp [splitOnPred, hd, ih]

theorem length_splitOnPred (p : Char → Bool) :
    ∀ s : List Char, (splitOnPred p s).length = s.countP p + 1
  | [] => rfl
  | c :: cs => by
    have ih := length_splitOnPred p cs
    cases hp : p c with
    | true =>
      simp [splitOnPred, hp, ih, List.countP_cons]
    | false =>
      cases h : splitOnPred p cs with
      | nil => exact absurd h (splitOnPred_ne_nil p cs)
      | cons l ls =>
        rw [h] at ih
        simp [splitOnPred, hp, h, List.countP_cons]
        simpa using ih

theorem splitOnChar_of_not_mem {sep : Char} {m : List Char} (h : sep ∉ m) :
    splitOnChar sep m = [m] := by
  refine splitOnPred_of_no_sep (fun c hc => ?_)
  simp only [beq_eq_false_iff_ne, ne_eq]
  exact fun hcs => h (hcs ▸ hc)

theorem splitOnChar_append {sep : Char} {m : List Char} (h : sep ∉ m)
    (rest : List Char) :
    splitOnChar sep (m ++ sep :: rest) = m :: splitOnChar sep rest := by
  refine splitOnPred_append (by simp) rest (fun c hc => ?_)
  simp only [beq_eq_false_iff_ne, ne_eq]
  exact fun hcs => h (hcs ▸ hc)

theorem length_splitOnChar (sep : Char) (s : List Char) :
    (splitOnChar sep s).length = s.count sep + 1 := by
  rw [splitOnChar, length_splitOnPred, List.count]

theorem pyGet_ofNat {α : Type} (l : List α) (n : ℕ) :
    pyGet l (n : Int) = l[n]? := by
  simp [pyGet]

theorem pyGet_one {α : Type} (a : α) (l : List α) :
    pyGet (a :: l) 1 = l[0]? := by
  simpa using pyGet_ofNat (a :: l) 1

/-- In `l[len(l) - 1]`, Python indexing never fails on a nonempty list and
yields the last element (for a singleton the index is `0`; otherwise it is
nonnegative and in range). -/
theorem pyGet_len_sub_one {α : Type} (l : List α) (h : l ≠ []) :
    pyGet l ((l.length : Int) - 1) = l.getLast? := by
  have hlen : 1 ≤ l.length := by
    cases l with
    | nil => exact absurd rfl h
    | cons a l => simp
  have hcast : ((l.length : Int) - 1) = ((l.length - 1 : ℕ) : Int) := by
    omega
  rw [hcast, pyGet_ofNat, List.getLast?_eq_getElem?]

/-- In `l[len(l) - 2]`, Python indexing never fails on a nonempty list: for a
singleton the index is `-1`, which wraps to the (only) element. -/
theorem pyGet_len_sub_two {α : Type} (l : List α) (h : l ≠ []) :
    pyGet l ((l.length : Int) - 2) = l[l.length - 2]? := by
  rcases l with _ | ⟨a, _ | ⟨b, t⟩⟩
  · exact absurd rfl h
  · simp [pyGet]
  · have hlen : 2 ≤ (a :: b :: t).length := by simp
    have hcast : (((a :: b :: t).length : Int) - 2)
        = (((a :: b :: t).length - 2 : ℕ) : Int) := by
      simp only [List.length_cons]
      omega
    rw [hcast, pyGet_ofNat]

theorem get_response_code_from_log_isSome (line : List Char) :
    (get_response_code_from_log line).isSome = true := by
  rw [get_response_code_from_log]
  have hne : splitOnChar ' ' line ≠ [] := splitOnPred_ne_nil _ line
  rw [pyGet_len_sub_two _ hne]
  have hlen : (splitOnChar ' ' line).length - 2 < (splitOnChar ' ' line).length := by
    cases h : splitOnChar ' ' line with
    | nil => exact absurd h hne
    | cons a t =>
      simp only [h, List.length_cons]
      omega
  simp [List.getElem?_eq_getElem hlen]

/-- The last segment of a split is separator-free, and it is the suffix of the
input following the last separator occurrence (or the whole input when no
separator occurs). -/
theorem getLast?_splitOnPred (p : Char → Bool) :
    ∀ s : List Char, ∃ seg, (splitOnPred p s).getLast? = some seg ∧
      (∀ c ∈ seg, p c = false) ∧
      (s = seg ∨ ∃ a c0, p c0 = true ∧ s = a ++ c0 :: seg)
  | [] => ⟨[], by simp [splitOnPred], by simp, Or.inl rfl⟩
  | c :: cs => by
    obtain ⟨seg, hlast, hfree, hrel⟩ := getLast?_splitOnPred p cs
    cases hp : p c with
    | true =>
      refine ⟨seg, ?_, hfree, ?_⟩
      · cases h : splitOnPred p cs with
        | nil => exact absurd h (splitOnPred_ne_nil p cs)
        | cons l ls =>
          rw [h] at hlast
          simpa [splitOnPred, hp, h] using hlast
      · rcases hrel with h1 | ⟨a, c0, hc0, ha⟩
        · exact Or.inr ⟨[], c, hp, by simp [h1]⟩
        · exact Or.inr ⟨c :: a, c0, hc0, by simp [ha]⟩
    | false =>
      cases h : splitOnPred p cs with
      | nil => exact absurd h (splitOnPred_ne_nil p cs)
      | cons l ls =>
        cases ls with
        | nil =>
          rw [h] at hlast
          simp only [List.getLast?_singleton, Option.some.injEq] at hlast
          have hcount : cs.countP p = 0 := by
            have hl := length_splitOnPred p cs
            rw [h] at hl
            simpa using hl.symm
          have hfree' : ∀ d ∈ cs, p d = false := by
            intro d hd
            have := (List.countP_eq_zero).1 hcount d hd
            simpa using this
          have hcs : cs = seg := by
            rcases hrel with h1 | ⟨a, c0, hc0, ha⟩
            · exact h1
            · exact absurd (hfree' c0 (by simp [ha])) (by simp [hc0])
          refine ⟨c :: seg, ?_, ?_, Or.inl (by rw [hcs])⟩
          · simp [splitOnPred, hp, h, hlast]
          · intro d hd
            rcases List.mem_cons.1 hd with rfl | hd'
            · exact hp
            · exact hfree d hd'
        | cons l2 ls2 =>
          have hcount : 0 < cs.countP p := by
            have hl := length_splitOnPred p cs
            rw [h] at hl
            simp only [List.length_cons] at hl
            omega
          refine ⟨seg, ?_, hfree, ?_⟩
          · rw [h] at hlast
            rw [List.getLast?_cons_cons] at hlast
            simpa [splitOnPred, hp, h] using hlast
          · rcases hrel with h1 | ⟨a, c0, hc0, ha⟩
            · exfalso
              obtain ⟨d, hd, hpd⟩ := List.countP_pos_iff.1 hcount
              rw [h1] at hd
              exact absurd (hfree d hd) (by simp [hpd])
            · exact Or.inr ⟨c :: a, c0, hc0, by simp [ha]⟩

/-- Specialisation to a single separator character. -/
theorem getLast?_splitOnChar (sep : Char) (s : List Char) :
    ∃ seg, (splitOnChar sep s).getLast? = some seg ∧ sep ∉ seg ∧
      (s = seg ∨ ∃ a, s = a ++ sep :: seg) := by
  obtain ⟨seg, hlast, hfree, hrel⟩ := getLast?_splitOnPred (fun c => c == sep) s
  refine ⟨seg, hlast, ?_, ?_⟩
  · intro hmem
    have := hfree sep hmem
    simp at this
  · rcases hrel with h1 | ⟨a, c0, hc0, ha⟩
    · exact Or.inl h1
    · have : c0 = sep := by simpa using hc0
      exact Or.inr ⟨a, by rw [ha, this]⟩

theorem pyGet_cons_cons_one {α : Type} (a b : α) (l : List α) :
    pyGet (a :: b :: l) 1 = some b := by
  simp [pyGet]

/-! ### Joining single-space-separated tokens -/

theorem splitOnPred_joinTokens {p : Char → Bool} (hsp : p ' ' = true) :
    ∀ ts : List (List Char), ts ≠ [] →
      (∀ t ∈ ts, ∀ c ∈ t, p c = false) →
      splitOnPred p (joinTokens ts) = ts
  | [], h, _ => absurd rfl h
  | [t], _, hfree => by
    rw [joinTokens]
    exact splitOnPred_of_no_sep (hfree t (by simp))
  | t :: t2 :: ts, _, hfree => by
    have ih := splitOnPred_joinTokens hsp (t2 :: ts) (by simp)
      (fun u hu => hfree u (by simp [hu]))
    show splitOnPred p (t ++ ' ' :: joinTokens (t2 :: ts)) = t :: t2 :: ts
    rw [splitOnPred_append hsp _ (hfree t (by simp)), ih]

/-! ### C1: the extension filter -/

/-- C1 (counterexample): the claim says the extension-filter predicate is
case-insensitive on both sides, so the element `funny_picture.gif` should
pass the configured filter `.GIF` (the lower-cased element ends with the
lower-cased filter).  The code lower-cases only the element, so it rejects:
the claim is false at this input. -/
theorem c1_counterexample :
    last_path_element_passes_extension_filter ((".GIF").data) (("funny_picture.gif").data)
        = false
      ∧ pyEndsWith (pyLower (("funny_picture.gif").data)) (pyLower ((".GIF").data)) = true := by
  exact ⟨by decide, by decide⟩

/-- C1 (amended): the extension-filter predicate is case-insensitive on the
path element only: it accepts the element iff the lower-cased element ends
with the configured filter string as given (not lower-cased).  In particular
`funny_picture.GIF` passes filter `.gif`, `/funny/directory/` does not pass
`.gif`, and `funny_picture.gif` does not pass `.GIF`. -/
theorem c1_extension_filter_amended :
    (∀ extension_filter e : List Char,
      last_path_element_passes_extension_filter extension_filter e = true ↔
        extension_filter <:+ pyLower e)
      ∧ last_path_element_passes_extension_filter ((".gif").data)
          (("funny_picture.GIF").data) = true
      ∧ last_path_element_passes_extension_filter ((".gif").data)
          (("/funny/directory/").data) = false
      ∧ last_path_element_passes_extension_filter ((".GIF").data)
          (("funny_picture.gif").data) = false := by
  refine ⟨fun f e => ?_, by decide, by decide, by decide⟩
  rw [last_path_element_passes_extension_filter, pyEndsWith]
  exact List.isSuffixOf_iff_suffix

/-! ### C4: extraction of the last path element -/

/-- C4 (confirmed): for every well-formed common-log-format line — a string
of the shape `pre ++ '"' ++ method ++ ' ' ++ path ++ ' ' ++ proto ++ '"' ++ post`
where the part before the quoted request field contains no `'"'`, the request
field's three parts contain no `'"'`, and method and path contain no space —
`extractLastPathElement` succeeds and returns the final `'/'`-delimited
component of the path token (the token at index 1 of the space-split of the
quoted field, itself at index 1 of the `'"'`-split of the line): the returned
segment contains no `'/'` and is the suffix of the path after its last `'/'`
(the whole path if it has none). -/
theorem c4_last_path_element (pre method path proto post : List Char)
    (hpre : '"' ∉ pre) (hm : '"' ∉ method) (hp : '"' ∉ path) (hpr : '"' ∉ proto)
    (hms : ' ' ∉ method) (hps : ' ' ∉ path) :
    ∃ seg,
      get_last_path_element_from_log
          (pre ++ '"' :: ((method ++ ' ' :: (path ++ ' ' :: proto)) ++ '"' :: post))
        = some seg
      ∧ '/' ∉ seg ∧ (path = seg ∨ ∃ a, path = a ++ '/' :: seg) := by
  have hreq : '"' ∉ method ++ ' ' :: (path ++ ' ' :: proto) := by
    intro hmem
    simp only [List.mem_append, List.mem_cons] at hmem
    rcases hmem with h | h | h | h | h
    · exact hm h
    · exact absurd h.symm (by decide)
    · exact hp h
    · exact absurd h.symm (by decide)
    · exact hpr h
  have h1 : splitOnChar '"'
      (pre ++ '"' :: ((method ++ ' ' :: (path ++ ' ' :: proto)) ++ '"' :: post))
      = pre :: (method ++ ' ' :: (path ++ ' ' :: proto)) :: splitOnChar '"' post := by
    rw [splitOnChar_append hpre, splitOnChar_append hreq]
  have h2 : splitOnChar ' ' (method ++ ' ' :: (path ++ ' ' :: proto))
      = method :: path :: splitOnChar ' ' proto := by
    rw [splitOnChar_append hms, splitOnChar_append hps]
  obtain ⟨seg, hlast, hfree, hrel⟩ := getLast?_splitOnChar '/' path
  refine ⟨seg, ?_, hfree, hrel⟩
  rw [get_last_path_element_from_log, h1, pyGet_cons_cons_one]
  simp only [h2, pyGet_cons_cons_one]
  have hne : splitOnChar '/' path ≠ [] := splitOnPred_ne_nil _ path
  rw [pyGet_len_sub_one _ hne, hlast]

/-- C4 (witness): the theorem applied to the source's sample log line; the
extracted element evaluates to `liftoff.html`. -/
theorem c4_last_path_element_witness :
    get_last_path_element_from_log
        (c4_pre ++ '"' :: ((c4_method ++ ' ' :: (c4_path ++ ' ' :: c4_proto)) ++ '"' :: c4_post))
      = some (("liftoff.html").data)
    ∧ ∃ seg,
        get_last_path_element_from_log
            (c4_pre ++ '"' :: ((c4_method ++ ' ' :: (c4_path ++ ' ' :: c4_proto)) ++ '"' :: c4_post))
          = some seg
        ∧ '/' ∉ seg ∧ (c4_path = seg ∨ ∃ a, c4_path = a ++ '/' :: seg) :=
  ⟨by decide,
   c4_last_path_element c4_pre c4_method c4_path c4_proto c4_post
     (by decide) (by decide) (by decide) (by decide) (by decide) (by decide)⟩

/-! ### C5: extraction of the response code -/

/-- C5 (counterexample): the claim says `extractResponseCode` returns the
second-to-last *whitespace*-separated token for lines whose tokens are
separated by arbitrary whitespace.  On `tab_line`, where a tab separates the
closing quote from the status code, the second-to-last whitespace token is
`304`, but the code splits on the space character only and returns
`HTTP/1.0"\t304`: the claim is false at this input. -/
theorem c5_counterexample :
    get_response_code_from_log tab_line = some (("HTTP/1.0\x22\t304").data)
      ∧ extract_response_code_spec tab_line = some (("304").data)
      ∧ get_response_code_from_log tab_line ≠ extract_response_code_spec tab_line := by
  exact ⟨by decide, by decide, by decide⟩

/-- C5 (amended): `extractResponseCode` splits the line on the single space
character `' '` (not on general whitespace) and returns the second-to-last
token of that split.  For lines whose tokens are separated by single spaces —
a line that is the space-join of at least two nonempty, whitespace-free
tokens — this equals the second-to-last whitespace-separated token. -/
theorem c5_response_code_amended (tokens : List (List Char))
    (hlen : 2 ≤ tokens.length)
    (htok : ∀ t ∈ tokens, t ≠ [] ∧ ∀ c ∈ t, isSpaceChar c = false) :
    get_response_code_from_log (joinTokens tokens) = tokens[tokens.length - 2]?
      ∧ pySplitWhitespace (joinTokens tokens) = tokens := by
  have hne : tokens ≠ [] := by
    intro h
    rw [h] at hlen
    simp at hlen
  have hsp1 : splitOnChar ' ' (joinTokens tokens) = tokens := by
    refine splitOnPred_joinTokens (by decide) tokens hne (fun t ht c hc => ?_)
    have hws := (htok t ht).2 c hc
    cases hcc : (c == ' ') with
    | false => rfl
    | true =>
      exfalso
      have : isSpaceChar c = true := by
        rw [isSpaceChar, hcc]
        simp
      rw [this] at hws
      exact Bool.true_eq_false.mp hws
  have hsp2 : splitOnPred isSpaceChar (joinTokens tokens) = tokens :=
    splitOnPred_joinTokens (by decide) tokens hne (fun t ht c hc => (htok t ht).2 c hc)
  constructor
  · rw [get_response_code_from_log]
    simp only [hsp1]
    exact pyGet_len_sub_two tokens hne
  · rw [pySplitWhitespace, hsp2]
    rw [List.filter_eq_self]
    intro t ht
    have := (htok t ht).1
    simpa using this

/-- C5 (witness): the amended theorem applied to the token list
`[a, 304, 0]`; the code extracts `304`, the second-to-last whitespace
token of the joined line `a 304 0`. -/
theorem c5_response_code_amended_witness :
    (2 ≤ c5_tokens.length)
      ∧ (get_response_code_from_log (joinTokens c5_tokens)
            = c5_tokens[c5_tokens.length - 2]?
          ∧ pySplitWhitespace (joinTokens c5_tokens) = c5_tokens)
      ∧ get_response_code_from_log (joinTokens c5_tokens) = some (("304").data) :=
  ⟨by decide, c5_response_code_amended c5_tokens (by decide) (by decide), by decide⟩

/-! ### The filtering loop -/

theorem process_log_line_eq (extension_filter code_filter line : List Char)
    (h : (get_last_path_element_from_log line).isSome = true) :
    process_log_line extension_filter code_filter line
      = some (if passes_both_filters extension_filter code_filter line
              then [written_element line] else []) := by
  obtain ⟨e, he⟩ := Option.isSome_iff_exists.1 h
  obtain ⟨code, hc⟩ := Option.isSome_iff_exists.1 (get_response_code_from_log_isSome line)
  rw [process_log_line, passes_both_filters, written_element, he, hc]
  cases hext : last_path_element_passes_extension_filter extension_filter e with
  | false => simp [hext]
  | true =>
    cases hcode : response_code_passes_filter code_filter code with
    | false => simp [hext, hcode]
    | true => simp [hext, hcode]

theorem process_log_line_none (extension_filter code_filter line : List Char)
    (h : get_last_path_element_from_log line = none) :
    process_log_line extension_filter code_filter line = none := by
  rw [process_log_line, h]

theorem filter_run_eq (extension_filter code_filter : List Char) :
    ∀ lines : List (List Char),
      (∀ l ∈ lines, (get_last_path_element_from_log l).isSome = true) →
      filter_run extension_filter code_filter lines
        = ((lines.filter (passes_both_filters extension_filter code_filter)).map
            written_element, true)
  | [], _ => rfl
  | line :: rest, h => by
    have ih := filter_run_eq extension_filter code_filter rest
      (fun l hl => h l (by simp [hl]))
    rw [filter_run, process_log_line_eq extension_filter code_filter line (h line (by simp))]
    rw [ih, List.filter_cons]
    cases hpass : passes_both_filters extension_filter code_filter line with
    | false => simp [hpass]
    | true => simp [hpass]

theorem filter_run_failed (extension_filter code_filter : List Char) :
    ∀ lines : List (List Char),
      (∃ l ∈ lines, get_last_path_element_from_log l = none) →
      (filter_run extension_filter code_filter lines).2 = false
  | line :: rest, h => by
    rw [filter_run]
    obtain ⟨l, hl, hnone⟩ := h
    rcases List.mem_cons.1 hl with rfl | hl'
    · rw [process_log_line_none extension_filter code_filter l hnone]
    · have ih := filter_run_failed extension_filter code_filter rest ⟨l, hl', hnone⟩
      cases hp : process_log_line extension_filter code_filter line with
      | none => rfl
      | some w => simpa using ih

theorem malformed_line_iff (line : List Char) :
    malformed_line line ↔ get_last_path_element_from_log line = none := by
  rw [malformed_line, get_last_path_element_from_log]
  have h1 : pyGet (splitOnChar '"' line) 1 = (splitOnChar '"' line)[1]? := by
    simpa using pyGet_ofNat (splitOnChar '"' line) 1
  rw [h1]
  cases hq : (splitOnChar '"' line)[1]? with
  | none =>
    have hlen : (splitOnChar '"' line).length ≤ 1 := List.getElem?_eq_none_iff.1 hq
    simp only [hq]
    constructor
    · intro _; trivial
    · intro _; left; omega
  | some req =>
    obtain ⟨hlen, -⟩ := List.getElem?_eq_some_iff.1 hq
    have h2 : pyGet (splitOnChar ' ' req) 1 = (splitOnChar ' ' req)[1]? := by
      simpa using pyGet_ofNat (splitOnChar ' ' req) 1
    simp only [hq, Option.getD_some, h2]
    cases hsp : (splitOnChar ' ' req)[1]? with
    | none =>
      have hlen2 : (splitOnChar ' ' req).length ≤ 1 := List.getElem?_eq_none_iff.1 hsp
      constructor
      · intro _; trivial
      · intro _; right; exact ⟨by omega, by omega⟩
    | some file_path =>
      obtain ⟨hlen2, -⟩ := List.getElem?_eq_some_iff.1 hsp
      have hne : splitOnChar '/' file_path ≠ [] := splitOnPred_ne_nil _ file_path
      dsimp only
      rw [pyGet_len_sub_one _ hne]
      constructor
      · intro hm
        rcases hm with hm | ⟨-, hm⟩
        · omega
        · omega
      · intro hlast
        exact absurd hlast (by simpa [List.getLast?_eq_none_iff] using hne)

/-! ### C2: the filtering run -/

/-- C2 (confirmed): for a source file whose lines are all well-formed (the
last-path-element extraction succeeds on each), the filtering run succeeds
and writes to the output file exactly the last path elements of the lines
that pass both the extension filter and the response-code filter, one per
line, each followed by a newline, in source order and with duplicates
preserved; and the output filename is the literal `gifs_` prepended to the
source filename. -/
theorem c2_filtering_run (extension_filter code_filter filename content : List Char)
    (fs : FileSys) (hfs : fs filename = some content)
    (h : ∀ l ∈ splitLines content, (get_last_path_element_from_log l).isSome = true) :
    create_new_file_with_filtered_elements extension_filter code_filter
        (splitLines content)
      = some (((splitLines content).filter
          (passes_both_filters extension_filter code_filter)).map written_element)
    ∧ run_filter_fs extension_filter code_filter filename fs
        (filtered_elements_filename filename)
      = some ((((splitLines content).filter
          (passes_both_filters extension_filter code_filter)).map written_element).flatten)
    ∧ filtered_elements_filename filename = ("gifs_").data ++ filename := by
  have hrun := filter_run_eq extension_filter code_filter (splitLines content) h
  refine ⟨?_, ?_, rfl⟩
  · rw [create_new_file_with_filtered_elements, hrun]
    simp
  · rw [run_filter_fs, hfs]
    simp only [hrun, fsWrite, if_pos rfl]
    simp

/-- C2 (witness): on the two-line sample file, only `b.gif` passes the
`.gif`/`200` filters; the run writes exactly `b.gif\n` to `gifs_log.txt`. -/
theorem c2_filtering_run_witness :
    (create_new_file_with_filtered_elements ((".gif").data) (("200").data)
          (splitLines sample_content)
        = some (((splitLines sample_content).filter
            (passes_both_filters ((".gif").data) (("200").data))).map written_element)
      ∧ run_filter_fs ((".gif").data) (("200").data) (("log.txt").data) sample_fs
          (filtered_elements_filename (("log.txt").data))
        = some ((((splitLines sample_content).filter
            (passes_both_filters ((".gif").data) (("200").data))).map written_element).flatten)
      ∧ filtered_elements_filename (("log.txt").data) = ("gifs_").data ++ ("log.txt").data)
    ∧ create_new_file_with_filtered_elements ((".gif").data) (("200").data)
        (splitLines sample_content) = some [("b.gif\n").data] :=
  ⟨c2_filtering_run ((".gif").data) (("200").data) (("log.txt").data) sample_content
      sample_fs (by decide) (by decide),
   by decide⟩

/-! ### C7: malformed lines abort the run -/

/-- C7 (confirmed): if any line of the source file is malformed — it lacks
two `'"'`-delimited segments, or its quoted request field lacks a second
space-separated token — the filtering run aborts with a propagated parse
failure instead of skipping the line; and a line is malformed in exactly
this sense iff `extractLastPathElement` raises on it. -/
theorem c7_malformed_aborts (extension_filter code_filter : List Char)
    (lines : List (List Char)) (h : ∃ l ∈ lines, malformed_line l) :
    create_new_file_with_filtered_elements extension_filter code_filter lines = none
      ∧ ∀ line, malformed_line line ↔ get_last_path_element_from_log line = none := by
  obtain ⟨l, hl, hml⟩ := h
  have hfail := filter_run_failed extension_filter code_filter lines
    ⟨l, hl, (malformed_line_iff l).1 hml⟩
  refine ⟨?_, malformed_line_iff⟩
  rw [create_new_file_with_filtered_elements, hfail]
  simp

/-- C7 (witness): on `bad_content`, whose second line has no quote pair, the
run aborts and produces no complete output. -/
theorem c7_malformed_aborts_witness :
    create_new_file_with_filtered_elements ((".gif").data) (("200").data)
        (splitLines bad_content) = none
      ∧ ∀ line, malformed_line line ↔ get_last_path_element_from_log line = none :=
  c7_malformed_aborts ((".gif").data) (("200").data) (splitLines bad_content)
    ⟨("h2 - - [t] no quotes at all 200 9\n").data, by decide, by decide⟩

/-! ### C10: the empty extension filter accepts everything -/

/-- C10 (confirmed): with the empty string as extension filter the predicate
accepts every path element, so on a well-formed source file the run writes
the last path element of every line whose response code matches the code
filter — including the empty element produced by request paths ending in
`/`. -/
theorem c10_empty_extension_filter (code_filter : List Char)
    (lines : List (List Char))
    (h : ∀ l ∈ lines, (get_last_path_element_from_log l).isSome = true) :
    create_new_file_with_filtered_elements [] code_filter lines
        = some ((lines.filter (passes_code_filter code_filter)).map written_element)
      ∧ ∀ e, last_path_element_passes_extension_filter [] e = true := by
  have hall : ∀ e, last_path_element_passes_extension_filter [] e = true := by
    intro e
    rw [last_path_element_passes_extension_filter, pyEndsWith]
    exact List.isSuffixOf_nil_left
  refine ⟨?_, hall⟩
  rw [create_new_file_with_filtered_elements, filter_run_eq [] code_filter lines h]
  have hfilter : lines.filter (passes_both_filters [] code_filter)
      = lines.filter (passes_code_filter code_filter) := by
    refine List.filter_congr (fun l hl => ?_)
    obtain ⟨e, he⟩ := Option.isSome_iff_exists.1 (h l hl)
    rw [passes_both_filters, passes_code_filter, he]
    dsimp only
    rw [hall e, Bool.true_and]
  rw [hfilter]
  simp

/-- C10 (witness): on a file whose only line requests `/shuttle/countdown/`
with code `200`, the empty extension filter lets the empty last path element
through and the run writes a bare newline. -/
theorem c10_empty_extension_filter_witness :
    (create_new_file_with_filtered_elements [] (("200").data) (splitLines dir_content)
        = some (((splitLines dir_content).filter
            (passes_code_filter (("200").data))).map written_element)
      ∧ ∀ e, last_path_element_passes_extension_filter [] e = true)
    ∧ create_new_file_with_filtered_elements [] (("200").data) (splitLines dir_content)
        = some [("\n").data] :=
  ⟨c10_empty_extension_filter (("200").data) (splitLines dir_content) (by decide),
   by decide⟩

/-! ### Reading lines back from written contents -/

theorem splitLines_cons (c : Char) (cs : List Char) :
    splitLines (c :: cs) =
      if c = '\n' then ['\n'] :: splitLines cs
      else
        match splitLines cs with
        | [] => [[c]]
        | l :: ls => (c :: l) :: ls := by
  rw [splitLines]

theorem splitLines_term_append {m : List Char} (hm : '\n' ∉ m) (rest : List Char) :
    splitLines (m ++ '\n' :: rest) = (m ++ ['\n']) :: splitLines rest := by
  induction m with
  | nil => simp [splitLines_cons]
  | cons c m ih =>
    have hc : c ≠ '\n' := fun h => hm (by simp [h])
    have ih' := ih (fun h => hm (by simp [h]))
    rw [List.cons_append, splitLines_cons, if_neg hc, ih']
    simp

theorem splitLines_no_nl : ∀ {u : List Char}, u ≠ [] → '\n' ∉ u → splitLines u = [u]
  | [], h, _ => absurd rfl h
  | [c], _, hnl => by
    have hc : c ≠ '\n' := fun h => hnl (by simp [h])
    rw [splitLines_cons, if_neg hc]
    simp [splitLines]
  | c :: d :: u, _, hnl => by
    have hc : c ≠ '\n' := fun h => hnl (by simp [h])
    have ih := @splitLines_no_nl (d :: u) (by simp) (fun h => hnl (by simp [h]))
    rw [splitLines_cons, if_neg hc, ih]

theorem validLines_splitLines : ∀ s : List Char, ValidLines (splitLines s)
  | [] => Or.inl (by simp [splitLines])
  | c :: cs => by
    have ih := validLines_splitLines cs
    by_cases hc : c = '\n'
    · subst hc
      rw [splitLines_cons, if_pos rfl]
      have hterm : NlTerminated ['\n'] := ⟨[], rfl, by simp⟩
      rcases ih with hall | ⟨ts, u, hls, hts, hu, hnl⟩
      · refine Or.inl (fun l hl => ?_)
        rcases List.mem_cons.1 hl with rfl | hl'
        · exact hterm
        · exact hall l hl'
      · refine Or.inr ⟨['\n'] :: ts, u, by simp [hls], ?_, hu, hnl⟩
        intro t ht
        rcases List.mem_cons.1 ht with rfl | ht'
        · exact hterm
        · exact hts t ht'
    · rw [splitLines_cons, if_neg hc]
      cases h : splitLines cs with
      | nil =>
        refine Or.inr ⟨[], [c], by simp, by simp, by simp, ?_⟩
        intro hmem
        rcases List.mem_singleton.1 hmem with rfl
        exact hc rfl
      | cons l ls =>
        rw [h] at ih
        rcases ih with hall | ⟨ts, u, hls, hts, hu, hnl⟩
        · refine Or.inl (fun t ht => ?_)
          rcases List.mem_cons.1 ht with rfl | ht'
          · obtain ⟨m, hm, hmn⟩ := hall l (by simp)
            refine ⟨c :: m, by simp [hm], ?_⟩
            intro hmem
            rcases List.mem_cons.1 hmem with rfl | hmem'
            · exact hc rfl
            · exact hmn hmem'
          · exact hall t (by simp [ht'])
        · cases ts with
          | nil =>
            simp only [List.nil_append] at hls
            injection hls with h1 h2
            subst h1
            subst h2
            refine Or.inr ⟨[], c :: l, by simp, by simp, by simp, ?_⟩
            intro hmem
            rcases List.mem_cons.1 hmem with rfl | hmem'
            · exact hc rfl
            · exact hnl hmem'
          | cons t ts' =>
            rw [List.cons_append] at hls
            injection hls with h1 h2
            subst h1
            subst h2
            obtain ⟨m, hm, hmn⟩ := hts l (by simp)
            refine Or.inr ⟨(c :: l) :: ts', u, by simp, ?_, hu, hnl⟩
            intro t2 ht2
            rcases List.mem_cons.1 ht2 with rfl | ht2'
            · refine ⟨c :: m, by simp [hm], ?_⟩
              intro hmem
              rcases List.mem_cons.1 hmem with rfl | hmem'
              · exact hc rfl
              · exact hmn hmem'
            · exact hts t2 (by simp [ht2'])

theorem splitLines_flatten_term :
    ∀ {ts : List (List Char)}, (∀ t ∈ ts, NlTerminated t) →
      splitLines ts.flatten = ts
  | [], _ => rfl
  | t :: ts, h => by
    obtain ⟨m, hm, hmn⟩ := h t (by simp)
    have ih := @splitLines_flatten_term ts (fun t2 ht2 => h t2 (by simp [ht2]))
    rw [List.flatten_cons, hm, List.append_assoc, List.singleton_append,
      splitLines_term_append hmn, ih]

theorem splitLines_flatten : ∀ {ls : List (List Char)}, ValidLines ls →
    splitLines ls.flatten = ls := by
  intro ls h
  rcases h with hall | ⟨ts, u, rfl, hts, hu, hnl⟩
  · exact splitLines_flatten_term hall
  · induction ts with
    | nil =>
      simp only [List.nil_append, List.flatten_cons, List.flatten_nil, List.append_nil]
      exact splitLines_no_nl hu hnl
    | cons t ts ih =>
      obtain ⟨m, hm, hmn⟩ := hts t (by simp)
      have ih' := ih (fun t2 ht2 => hts t2 (by simp [ht2]))
      rw [List.cons_append, List.flatten_cons, hm, List.append_assoc,
        List.singleton_append, splitLines_term_append hmn, ih']

theorem dedup_append_singleton {α : Type} [DecidableEq α] {b : α} :
    ∀ {l : List α}, b ∉ l → (l ++ [b]).dedup = l.dedup ++ [b]
  | [], _ => by simp
  | a :: l, hb => by
    have hab : a ≠ b := fun h => hb (by simp [h])
    have hbl : b ∉ l := fun h => hb (by simp [h])
    have ih := dedup_append_singleton hbl
    by_cases hal : a ∈ l
    · rw [List.cons_append, List.dedup_cons_of_mem (by simp [hal]),
        List.dedup_cons_of_mem hal, ih]
    · have hal' : a ∉ l ++ [b] := by
        intro hmem
        rcases List.mem_append.1 hmem with h | h
        · exact hal h
        · exact hab (List.mem_singleton.1 h)
      rw [List.cons_append, List.dedup_cons_of_not_mem hal',
        List.dedup_cons_of_not_mem hal, ih, List.cons_append]

theorem validLines_dedup {ls : List (List Char)} (h : ValidLines ls) :
    ValidLines ls.dedup := by
  rcases h with hall | ⟨ts, u, rfl, hts, hu, hnl⟩
  · exact Or.inl (fun l hl => hall l (List.mem_dedup.1 hl))
  · have hmem : u ∉ ts := by
      intro hmem
      obtain ⟨m, hm, -⟩ := hts u hmem
      exact hnl (by simp [hm])
    rw [dedup_append_singleton hmem]
    exact Or.inr ⟨ts.dedup, u, rfl, fun t ht => hts t (List.mem_dedup.1 ht), hu, hnl⟩

/-- For an all-newline-terminated source file, every possible set iteration
order consists of newline-terminated lines, so reading the rewritten file
back recovers exactly the order's elements: no written value merges with its
neighbour. -/
theorem splitLines_remove_duplicates_term (content : List Char)
    (order : List (List Char))
    (hterm : ∀ l ∈ splitLines content, NlTerminated l)
    (horder : set_iteration_ok content order) :
    splitLines (remove_duplicates content order) = order := by
  refine splitLines_flatten_term (fun t ht => ?_)
  exact hterm t (List.mem_dedup.1 (horder.mem_iff.1 ht))

/-- Every line read from a file is nonempty, and is either newline-terminated
or newline-free (only a final line can be the latter). -/
theorem validLines_mem {ls : List (List Char)} (h : ValidLines ls)
    {l : List Char} (hl : l ∈ ls) :
    l ≠ [] ∧ (NlTerminated l ∨ '\n' ∉ l) := by
  rcases h with hall | ⟨ts, u, rfl, hts, hu, hnl⟩
  · obtain ⟨m, hm, -⟩ := hall l hl
    exact ⟨by simp [hm], Or.inl (hall l hl)⟩
  · rcases List.mem_append.1 hl with hlt | hlu
    · obtain ⟨m, hm, -⟩ := hts l hlt
      exact ⟨by simp [hm], Or.inl (hts l hlt)⟩
    · rcases List.mem_singleton.1 hlu with rfl
      exact ⟨hu, Or.inr hnl⟩

/-- If a newline-free nonempty line occurs among a file's lines, every other
line of the file is newline-terminated (the newline-free line can only be the
final one). -/
theorem validLines_no_nl_mem {ls : List (List Char)} (h : ValidLines ls)
    {x : List Char} (hx : x ∈ ls) (hnlx : '\n' ∉ x) :
    ∀ t ∈ ls, t ≠ x → NlTerminated t := by
  rcases h with hall | ⟨ts, u, rfl, hts, hu, hnl⟩
  · intro t ht _
    exact hall t ht
  · have hxu : x = u := by
      rcases List.mem_append.1 hx with hxt | hxu
      · obtain ⟨m, hm, -⟩ := hts x hxt
        exact absurd (by simp [hm] : '\n' ∈ x) hnlx
      · exact List.mem_singleton.1 hxu
    subst hxu
    intro t ht htne
    rcases List.mem_append.1 ht with htt | htu
    · exact hts t htt
    · exact absurd (List.mem_singleton.1 htu) htne

/-- If the line `x ++ '\n'` occurs in a file, then `x` is newline-free. -/
theorem no_nl_of_append_newline_valid {ls : List (List Char)} (h : ValidLines ls)
    {x : List Char} (hxn : x ++ ['\n'] ∈ ls) : '\n' ∉ x := by
  obtain ⟨-, hcase⟩ := validLines_mem h hxn
  rcases hcase with hterm | hnonl
  · obtain ⟨m, hm, hmn⟩ := hterm
    have hxm : x = m := by
      have := congrArg List.dropLast hm
      simpa using this
    exact hxm ▸ hmn
  · exact fun hmem => (hnonl (by simp)).elim

/-! ### C3: deduplication -/

/-- C3 (counterexample): the claim quantifies over every input file and
asserts the rewritten file's lines are exactly the distinct input lines.  For
the file `X\nY`, whose final line `Y` lacks its newline, the iteration order
that emits `Y` before `X\n` is a possible set order; the program then writes
`YX\n` — one merged line that is none of the input's lines, with line count 1
against 2 distinct input values — so the claim fails on this execution. -/
theorem c3_counterexample :
    set_iteration_ok unterminated_content [("Y").data, ("X\n").data]
      ∧ splitLines (remove_duplicates unterminated_content
          [("Y").data, ("X\n").data]) = [("YX\n").data]
      ∧ ("X\n").data ∉ splitLines (remove_duplicates unterminated_content
          [("Y").data, ("X\n").data])
      ∧ (splitLines (remove_duplicates unterminated_content
            [("Y").data, ("X\n").data])).length
          ≠ (splitLines unterminated_content).toFinset.card := by
  exact ⟨by decide, by decide, by decide, by decide⟩

/-- C3 (amended): for every input file all of whose lines are
newline-terminated (the file is empty or ends with a newline) and every
possible set iteration order, the rewritten file's lines are exactly the set
of distinct lines of the input: no line appears twice, a line appears iff it
appeared in the input, and the line count equals the number of distinct input
line values; the order of the output lines is unconstrained. -/
theorem c3_remove_duplicates_amended (content : List Char)
    (order : List (List Char))
    (hterm : ∀ l ∈ splitLines content, NlTerminated l)
    (horder : set_iteration_ok content order) :
    (splitLines (remove_duplicates content order)).Nodup
      ∧ (∀ l, l ∈ splitLines (remove_duplicates content order)
            ↔ l ∈ splitLines content)
      ∧ (splitLines (remove_duplicates content order)).length
          = (splitLines content).toFinset.card := by
  rw [splitLines_remove_duplicates_term content order hterm horder]
  refine ⟨(horder.nodup_iff).2 (List.nodup_dedup _), ?_, ?_⟩
  · intro l
    rw [horder.mem_iff]
    exact List.mem_dedup
  · rw [horder.length_eq]
    exact (List.card_toFinset _).symm

/-- C3 (witness): the amended theorem on the newline-terminated file
`x\ny\nx\n` with the iteration order `x\n, y\n`; the rewritten file has
exactly the two distinct lines. -/
theorem c3_remove_duplicates_amended_witness :
    ((splitLines (remove_duplicates dedup_content
          [("x\n").data, ("y\n").data])).Nodup
      ∧ (∀ l, l ∈ splitLines (remove_duplicates dedup_content
            [("x\n").data, ("y\n").data]) ↔ l ∈ splitLines dedup_content)
      ∧ (splitLines (remove_duplicates dedup_content
            [("x\n").data, ("y\n").data])).length
          = (splitLines dedup_content).toFinset.card)
    ∧ splitLines (remove_duplicates dedup_content [("x\n").data, ("y\n").data])
        = [("x\n").data, ("y\n").data] :=
  ⟨c3_remove_duplicates_amended dedup_content [("x\n").data, ("y\n").data]
      (by decide) (by decide),
   by decide⟩

/-! ### C6: deduplication is idempotent -/

/-- C6 (counterexample): for the file `X\nX` a first run may use the order
`X\n, X`, leaving the contents unchanged, and the second run may use the
order `X, X\n`, writing the single merged line `XX\n`: the set of lines after
the second application differs from the set after the first, so idempotence
fails on this pair of executions. -/
theorem c6_counterexample :
    set_iteration_ok mixed_content [("X\n").data, ("X").data]
      ∧ remove_duplicates mixed_content [("X\n").data, ("X").data] = mixed_content
      ∧ set_iteration_ok
          (remove_duplicates mixed_content [("X\n").data, ("X").data])
          [("X").data, ("X\n").data]
      ∧ splitLines (remove_duplicates
            (remove_duplicates mixed_content [("X\n").data, ("X").data])
            [("X").data, ("X\n").data]) = [("XX\n").data]
      ∧ (splitLines (remove_duplicates
            (remove_duplicates mixed_content [("X\n").data, ("X").data])
            [("X").data, ("X\n").data])).toFinset
          ≠ (splitLines (remove_duplicates mixed_content
              [("X\n").data, ("X").data])).toFinset := by
  exact ⟨by decide, by decide, by decide, by decide, by decide⟩

/-- C6 (amended): for every input file all of whose lines are
newline-terminated, deduplication is idempotent across every pair of set
iteration orders: the lines after the second application are a permutation of
the lines after the first, so in particular the two sets of lines are
equal. -/
theorem c6_remove_duplicates_amended (content : List Char)
    (order1 order2 : List (List Char))
    (hterm : ∀ l ∈ splitLines content, NlTerminated l)
    (h1 : set_iteration_ok content order1)
    (h2 : set_iteration_ok (remove_duplicates content order1) order2) :
    (splitLines (remove_duplicates (remove_duplicates content order1)
        order2)).Perm (splitLines (remove_duplicates content order1))
      ∧ (splitLines (remove_duplicates (remove_duplicates content order1)
          order2)).toFinset
          = (splitLines (remove_duplicates content order1)).toFinset := by
  have hs1 : splitLines (remove_duplicates content order1) = order1 :=
    splitLines_remove_duplicates_term content order1 hterm h1
  have hnd1 : order1.Nodup := (h1.nodup_iff).2 (List.nodup_dedup _)
  have hterm1 : ∀ l ∈ order1, NlTerminated l := fun l hl =>
    hterm l (List.mem_dedup.1 (h1.mem_iff.1 hl))
  have h2' : order2.Perm order1 := by
    have h := h2
    rw [set_iteration_ok, hs1, List.dedup_eq_self.2 hnd1] at h
    exact h
  have hterm2 : ∀ l ∈ order2, NlTerminated l := fun l hl =>
    hterm1 l (h2'.mem_iff.1 hl)
  have hs2 : splitLines (remove_duplicates (remove_duplicates content order1)
      order2) = order2 := splitLines_flatten_term hterm2
  rw [hs2, hs1]
  exact ⟨h2', List.toFinset_eq_of_perm _ _ h2'⟩

/-- C6 (witness): for the file `x\ny\nx\n`, a first pass with order
`y\n, x\n` and a second pass with order `x\n, y\n` yield files with the same
set of lines. -/
theorem c6_remove_duplicates_amended_witness :
    ((splitLines (remove_duplicates
          (remove_duplicates dedup_content [("y\n").data, ("x\n").data])
          [("x\n").data, ("y\n").data])).Perm
        (splitLines (remove_duplicates dedup_content
          [("y\n").data, ("x\n").data]))
      ∧ (splitLines (remove_duplicates
            (remove_duplicates dedup_content [("y\n").data, ("x\n").data])
            [("x\n").data, ("y\n").data])).toFinset
          = (splitLines (remove_duplicates dedup_content
              [("y\n").data, ("x\n").data])).toFinset)
    ∧ splitLines (remove_duplicates
          (remove_duplicates dedup_content [("y\n").data, ("x\n").data])
          [("x\n").data, ("y\n").data]) = [("x\n").data, ("y\n").data] :=
  ⟨c6_remove_duplicates_amended dedup_content [("y\n").data, ("x\n").data]
      [("x\n").data, ("y\n").data] (by decide) (by decide) (by decide),
   by decide⟩

/-! ### C8: a missing trailing newline does not merge -/

/-- C8 (counterexample): the claim says that when both the unterminated final
line `X` and the newline-terminated `X\n` occur in the input, both survive
deduplication as separate output lines.  The set may iterate `X` before
`X\n`; the program then writes `XX\n`, and neither value appears as a line of
the output: the claim fails on this execution. -/
theorem c8_counterexample :
    set_iteration_ok mixed_content [("X").data, ("X\n").data]
      ∧ ("X").data ∈ splitLines mixed_content
      ∧ ("X\n").data ∈ splitLines mixed_content
      ∧ splitLines (remove_duplicates mixed_content
          [("X").data, ("X\n").data]) = [("XX\n").data]
      ∧ ("X").data ∉ splitLines (remove_duplicates mixed_content
          [("X").data, ("X\n").data])
      ∧ ("X\n").data ∉ splitLines (remove_duplicates mixed_content
          [("X").data, ("X\n").data]) := by
  exact ⟨by decide, by decide, by decide, by decide, by decide, by decide⟩

/-- C8 (amended): the final line `X` without its trailing newline and the
newline-terminated `X\n` are distinct values in the uniqueness container:
under every set iteration order both occur as separate written elements and
they are never equal as values; and whenever the unterminated line is written
last, both also survive as separate lines of the rewritten file. -/
theorem c8_no_newline_amended (content x : List Char)
    (order : List (List Char))
    (hx : x ∈ splitLines content) (hxn : x ++ ['\n'] ∈ splitLines content)
    (horder : set_iteration_ok content order) :
    x ∈ order ∧ x ++ ['\n'] ∈ order ∧ x ≠ x ++ ['\n']
      ∧ (order.getLast? = some x →
          x ∈ splitLines (remove_duplicates content order)
            ∧ x ++ ['\n'] ∈ splitLines (remove_duplicates content order)) := by
  have hvalid := validLines_splitLines content
  have hxo : x ∈ order := horder.mem_iff.2 (List.mem_dedup.2 hx)
  have hxno : x ++ ['\n'] ∈ order := horder.mem_iff.2 (List.mem_dedup.2 hxn)
  have hneq : x ≠ x ++ ['\n'] := by
    intro h
    have := congrArg List.length h
    simp at this
  refine ⟨hxo, hxno, hneq, ?_⟩
  intro hlastx
  have hnlx : '\n' ∉ x := no_nl_of_append_newline_valid hvalid hxn
  have hxne : x ≠ [] := (validLines_mem hvalid hx).1
  have hdecomp : order.dropLast ++ [x] = order :=
    List.dropLast_append_getLast? x hlastx
  have hnd : order.Nodup := (horder.nodup_iff).2 (List.nodup_dedup _)
  have hxnotdrop : x ∉ order.dropLast := by
    have hnd' : (order.dropLast ++ [x]).Nodup := hdecomp.symm ▸ hnd
    have hdisj := (List.nodup_append.1 hnd').2.2
    intro hmem
    exact hdisj hmem (by simp)
  have hts : ∀ t ∈ order.dropLast, NlTerminated t := by
    intro t ht
    have htm : t ∈ order := by
      rw [← hdecomp]
      exact List.mem_append_left _ ht
    have htl : t ∈ splitLines content := List.mem_dedup.1 (horder.mem_iff.1 htm)
    refine validLines_no_nl_mem hvalid hx hnlx t htl ?_
    intro h
    exact hxnotdrop (h ▸ ht)
  have hvalidorder : ValidLines order := by
    rw [← hdecomp]
    exact Or.inr ⟨order.dropLast, x, rfl, hts, hxne, hnlx⟩
  have hs : splitLines (remove_duplicates content order) = order :=
    splitLines_flatten hvalidorder
  rw [hs]
  exact ⟨hxo, hxno⟩

/-- C8 (witness): for the file `X\nX` under the iteration order `X\n, X`
(the unterminated line last), both `X` and `X\n` are separate lines of the
rewritten file. -/
theorem c8_no_newline_amended_witness :
    (("X").data ∈ [("X\n").data, ("X").data]
      ∧ ("X").data ++ ['\n'] ∈ [("X\n").data, ("X").data]
      ∧ ("X").data ≠ ("X").data ++ ['\n']
      ∧ ([("X\n").data, ("X").data].getLast? = some (("X").data) →
          ("X").data ∈ splitLines (remove_duplicates mixed_content
              [("X\n").data, ("X").data])
            ∧ ("X").data ++ ['\n'] ∈ splitLines (remove_duplicates mixed_content
              [("X\n").data, ("X").data])))
    ∧ splitLines (remove_duplicates mixed_content [("X\n").data, ("X").data])
        = [("X\n").data, ("X").data] :=
  ⟨c8_no_newline_amended mixed_content (("X").data) [("X\n").data, ("X").data]
      (by decide) (by decide) (by decide),
   by decide⟩


/-! ### C9: the filtering run touches only the output file -/

/-- C9 (confirmed): the filtering run's only file effect is on the output
file `'gifs_' + filename`: every other file — in particular the source file
itself, whose name always differs from the output name — is left unchanged. -/
theorem c9_frame (extension_filter code_filter filename : List Char) (fs : FileSys) :
    (∀ name, name ≠ filtered_elements_filename filename →
        run_filter_fs extension_filter code_filter filename fs name = fs name)
      ∧ run_filter_fs extension_filter code_filter filename fs filename
          = fs filename := by
  have hframe : ∀ name, name ≠ filtered_elements_filename filename →
      run_filter_fs extension_filter code_filter filename fs name = fs name := by
    intro name hname
    rw [run_filter_fs]
    cases hfs : fs filename with
    | none => rfl
    | some content =>
      show fsWrite fs (filtered_elements_filename filename) _ name = fs name
      rw [fsWrite]
      exact if_neg hname
  have hneq : filename ≠ filtered_elements_filename filename := by
    intro h
    have := congrArg List.length h
    simp [filtered_elements_filename] at this
    omega
  exact ⟨hframe, hframe filename hneq⟩

/-- C9 (witness): on the concrete file system holding only `log.txt`, the run
leaves `log.txt` unchanged and an unrelated name unmapped. -/
theorem c9_frame_witness :
    ((∀ name, name ≠ filtered_elements_filename (("log.txt").data) →
        run_filter_fs ((".gif").data) (("200").data) (("log.txt").data) sample_fs name
          = sample_fs name)
      ∧ run_filter_fs ((".gif").data) (("200").data) (("log.txt").data) sample_fs
          (("log.txt").data) = sample_fs (("log.txt").data))
    ∧ run_filter_fs ((".gif").data) (("200").data) (("log.txt").data) sample_fs
        (("other.txt").data) = none :=
  ⟨c9_frame ((".gif").data) (("200").data) (("log.txt").data) sample_fs, by decide⟩
